import Mathlib

set_option maxRecDepth 8192

/-!
Verification of the tcp-audit connection investigator.

The tool's parsing and correlation logic (src/index.ts, src/parser.ts) is embedded
shallowly: JavaScript strings are modelled as Lean strings, with the character-level
operations (split, includes, lastIndexOf, substring, parseInt, the few regexes) carried
out over `List Char`.  JavaScript `Map` objects (which preserve insertion order and
update values in place) are modelled as association lists.  Effectful inputs (the text
returned by remote ss invocations, the /proc cmdline snapshot, the geolocation fetch)
are passed in as explicit arguments or outcome values.
-/

/-- Splits a character list at every character satisfying p, dropping the separators and
keeping empty segments, mirroring JavaScript String.prototype.split with a
single-character separator (and, after discarding empties, a whitespace-run regex). -/
def splitOnPredAux (p : Char → Bool) : List Char → List Char → List (List Char)
  | [], acc => [acc.reverse]
  | c :: cs, acc => if p c then acc.reverse :: splitOnPredAux p cs [] else splitOnPredAux p cs (c :: acc)

def splitOnPred (p : Char → Bool) (cs : List Char) : List (List Char) :=
  splitOnPredAux p cs []

/-- The lines of a command's output, mirroring ssOutput.split of the newline character. -/
def linesOf (s : String) : List (List Char) := splitOnPred (· == '\n') s.toList

/-- Whitespace tokens of a line, mirroring line.trim().split on whitespace runs. -/
def tokens (cs : List Char) : List (List Char) :=
  (splitOnPred (·.isWhitespace) cs).filter (· ≠ [])

/-- Substring containment, mirroring JavaScript String.prototype.includes. -/
def includesAux (sub : List Char) : List Char → Bool
  | [] => sub.isPrefixOf []
  | c :: cs => sub.isPrefixOf (c :: cs) || includesAux sub cs

def includes (hay sub : List Char) : Bool := includesAux sub hay

/-- True when the line is empty or whitespace-only, mirroring the JavaScript
falsiness test !line.trim(). -/
def trimEmpty (cs : List Char) : Bool := cs.all (·.isWhitespace)

/-- Splits an addr:port token at its LAST colon, mirroring the source's
lastIndexOf-plus-substring pair; none when the token has no colon (the source guards
this case with an includes check). -/
def splitLastColon (cs : List Char) : Option (List Char × List Char) :=
  if ':' ∈ cs then
    some (((cs.reverse.dropWhile (· ≠ ':')).drop 1).reverse, (cs.reverse.takeWhile (· ≠ ':')).reverse)
  else none

def digitsToNat (ds : List Char) : Nat :=
  ds.foldl (fun n c => n * 10 + (c.toNat - 48)) 0

/-- JavaScript parseInt(s, 10) on the inputs this tool encounters: leading decimal
digits (after optional whitespace) parse to a number; anything without a leading digit
is NaN, modelled as none (the source only ever compares the result against a bound,
which is false for NaN, or stores it). -/
def jsParseInt (cs : List Char) : Option Nat :=
  let t := cs.dropWhile (·.isWhitespace)
  let ds := t.takeWhile (·.isDigit)
  if ds = [] then none else some (digitsToNat ds)

/-- The leftmost match of a regex of the form lit(\d+): the first occurrence of the
literal followed by at least one digit; returns the maximal digit run after it. -/
def scanLit (lit : List Char) : List Char → Option (List Char)
  | [] => none
  | c :: cs =>
    if lit.isPrefixOf (c :: cs) = true ∧ ((c :: cs).drop lit.length).takeWhile (·.isDigit) ≠ [] then
      some (((c :: cs).drop lit.length).takeWhile (·.isDigit))
    else scanLit lit cs

/-- pid extraction via the regex pid=(\d+), as in the source. -/
def findPid (cs : List Char) : Option Nat := (scanLit "pid=".toList cs).map digitsToNat

/-- The leftmost match of the source's process-name regex \("([^"]+)": an opening
parenthesis, a double quote, at least one non-quote character, and a closing quote. -/
def scanParenQuoted : List Char → Option (List Char)
  | [] => none
  | c :: cs =>
    if c = '(' ∧ cs.head? = some '"' then
      if (cs.drop 1).takeWhile (· ≠ '"') ≠ [] ∧
          ((cs.drop 1).drop ((cs.drop 1).takeWhile (· ≠ '"')).length).head? = some '"' then
        some ((cs.drop 1).takeWhile (· ≠ '"'))
      else scanParenQuoted cs
    else scanParenQuoted cs

/-- Modelled from the spec: "process name via the first quoted string" — the text
between the first double quote and the next one (if a closing quote exists).  This is
the claim's reading, kept separate so it can be compared with the source's
scanParenQuoted. -/
def specFirstQuoted : List Char → Option (List Char)
  | [] => none
  | c :: cs =>
    if c = '"' then
      if (cs.drop (cs.takeWhile (· ≠ '"')).length).head? = some '"' then
        some (cs.takeWhile (· ≠ '"'))
      else none
    else specFirstQuoted cs

/-- parts.slice(k).join of a single space, as in the source's process-text extraction. -/
def joinSpace (ps : List (List Char)) : List Char := (ps.intersperse [' ']).flatten

/-- First-occurrence deduplication, mirroring JavaScript spreading a Set built from a
list (Set iteration follows insertion order). -/
def dedupFirstAux [DecidableEq α] (seen : List α) : List α → List α
  | [] => []
  | a :: as => if a ∈ seen then dedupFirstAux seen as else a :: dedupFirstAux (a :: seen) as

def dedupFirst [DecidableEq α] (l : List α) : List α := dedupFirstAux [] l

/-- address.startsWith of a colon, the test separating synthetic listening keys from
real addresses throughout the source. -/
def startsColonL (cs : List Char) : Bool := cs.head? == some ':'

def startsColon (s : String) : Bool := startsColonL s.toList

/-- Association-list model of a JavaScript Map (and of a plain object used as a map):
set replaces the value of an existing key in place, otherwise appends, preserving
insertion order exactly as Map/object key iteration does. -/
def alSet [DecidableEq κ] : List (κ × β) → κ → β → List (κ × β)
  | [], k, v => [(k, v)]
  | e :: m, k, v => if e.1 = k then (k, v) :: m else e :: alSet m k v

def alGet [DecidableEq κ] : List (κ × β) → κ → Option β
  | [], _ => none
  | e :: m, k => if e.1 = k then some e.2 else alGet m k

/-! ## src/index.ts -/

structure ConnectionInfo where
  foreignAddress : String
  isOutgoing : Bool
deriving DecidableEq, Repr

/-- The continue conditions at the top of parseForeignAddresses' loop: blank lines,
header lines (containing "Peer Address" or "State"), and TIME-WAIT lines. -/
def lineSkipped (line : List Char) : Bool :=
  trimEmpty line || includes line "Peer Address".toList || includes line "State".toList ||
    includes line "TIME-WAIT".toList

/-- The foreign address parsed from a line: with at least 5 whitespace columns, the part
of column 5 before its last colon; otherwise the empty default. -/
def lineForeign (line : List Char) : List Char :=
  if (tokens line).length ≥ 5 then
    match splitLastColon ((tokens line).getD 4 []) with
    | some (addr, _) => addr
    | none => []
  else []

/-- The local port parsed from a line: with at least 5 whitespace columns, parseInt of
the part of column 4 after its last colon; none covers the 0 default and NaN. -/
def lineLocalPort (line : List Char) : Option Nat :=
  if (tokens line).length ≥ 5 then
    match splitLastColon ((tokens line).getD 3 []) with
    | some (_, portStr) => jsParseInt portStr
    | none => none
  else none

/-- The direction heuristic: localPort > 32768 (false on the 0 default and on NaN). -/
def lineOut (line : List Char) : Bool :=
  match lineLocalPort line with
  | some n => decide (32768 < n)
  | none => false

/-- The port captured for a LISTEN line: line.match of 0.0.0.0:(\d+), else of *:(\d+). -/
def listenPort (line : List Char) : Option (List Char) :=
  match scanLit "0.0.0.0:".toList line with
  | some p => some p
  | none => scanLit "*:".toList line

/-- One iteration of parseForeignAddresses' loop over the connections map. -/
def processLine (m : List (List Char × Bool)) (line : List Char) : List (List Char × Bool) :=
  if lineSkipped line then m
  else if lineForeign line = "[::]".toList then m
  else if lineForeign line ≠ [] ∧ lineForeign line ≠ "0.0.0.0".toList ∧
      lineForeign line ≠ "*".toList ∧ lineForeign line ≠ "127.0.0.1".toList then
    match alGet m (lineForeign line) with
    | some existing => alSet m (lineForeign line) (existing || lineOut line)
    | none => alSet m (lineForeign line) (lineOut line)
  else if (lineForeign line = "0.0.0.0".toList ∨ lineForeign line = "*".toList) ∧
      includes line "LISTEN".toList = true then
    match listenPort line with
    | some p => alSet m (':' :: p) true
    | none => m
  else m

/-- src/index.ts parseForeignAddresses: folds the loop over the lines and converts the
map's entries to ConnectionInfo records in insertion order. -/
def parseForeignAddresses (ssOutput : String) : List ConnectionInfo :=
  ((linesOf ssOutput).foldl processLine []).map
    (fun e => { foreignAddress := String.mk e.1, isOutgoing := e.2 })

/-- A line contributes the key X through the main (non-LISTEN) branch: it is not
skipped, its parsed foreign address is X, and X is none of the excluded values. -/
def lineContrib (line X : List Char) : Bool :=
  decide (lineSkipped line = false ∧ lineForeign line = X ∧ X ≠ [] ∧ X ≠ "[::]".toList ∧
    X ≠ "0.0.0.0".toList ∧ X ≠ "*".toList ∧ X ≠ "127.0.0.1".toList)

/-- Modelled from the spec: the sort helper imported from the socket-function package
(whose code is not part of this repository) is, per the specification's "stable
multi-pass sort" wording, a stable ascending sort by the supplied numeric key;
implemented as a stable insertion sort. -/
def stableInsert (key : α → Nat) (a : α) : List α → List α
  | [] => [a]
  | b :: bs => if key a ≤ key b then a :: b :: bs else b :: stableInsert key a bs

def sortByKey (key : α → Nat) (l : List α) : List α := l.foldr (stableInsert key) []

/-- The two sort passes main applies to the parsed connection list: first by
synthetic-key grouping, then by direction. -/
def listingSorted (l : List ConnectionInfo) : List ConnectionInfo :=
  sortByKey (fun x => if x.isOutgoing then 0 else 1)
    (sortByKey (fun x => if startsColon x.foreignAddress then 0 else 1) l)

/-- The display order the spec describes for the listing: synthetic listening keys,
then regular outgoing, then regular incoming entries. -/
def listingCategory (c : ConnectionInfo) : Nat :=
  if startsColon c.foreignAddress then 0 else if c.isOutgoing then 1 else 2

/-- The address-pattern shapes occurring in main's addrLookup: every regex there is an
anchored prefix (escaped literal after ^) or an anchored exact match (with a $). -/
inductive AddrPattern where
  | pre (s : String)
  | exact (s : String)
deriving DecidableEq, Repr

def patMatches (p : AddrPattern) (addr : String) : Bool :=
  match p with
  | .pre s => s.toList.isPrefixOf addr.toList
  | .exact s => addr == s

/-- src/index.ts getName: the first rule whose pattern matches wins; otherwise the
address itself.  The rule list is a parameter because main extends the static table
with rules resolved from DNS at startup. -/
def getName (addrLookup : List (AddrPattern × String)) (addr : String) : String :=
  match addrLookup with
  | [] => addr
  | r :: rest => if patMatches r.1 addr then r.2 else getName rest addr

/-- The static part of main's addrLookup table. -/
def staticAddrLookup : List (AddrPattern × String) :=
  [(.pre "20.96.", "azure"), (.pre "20.81.", "azure"), (.pre "20.97.", "azure"),
   (.exact "45.140.17.124", "proton66 (malicious scanner)"),
   (.pre "10.61", "wireguard vpn"), (.pre "104.192.142.", "atlassian"),
   (.exact "45.62.209.67", "old server 2"), (.exact "45.62.209.66", "old server"),
   (.exact "99.250.124.91", "quentin")]

structure IPInfoResponse where
  ip : String
  city : Option String
  region : Option String
  country : Option String
  loc : Option String
  org : Option String
  timezone : Option String
deriving DecidableEq, Repr

/-- The outcome of the fetch in getIPInfo: the network call either throws (modelled as
fetchFailed) or yields a response with an ok flag and a decoded body. -/
inductive FetchOutcome where
  | fetchFailed : FetchOutcome
  | resp (ok : Bool) (data : IPInfoResponse) : FetchOutcome
deriving DecidableEq, Repr

/-- JavaScript truthiness of an optional string field: present and non-empty. -/
def truthy : Option String → Bool
  | none => false
  | some s => decide (s ≠ "")

/-- The location string built from a response body in getIPInfo. -/
def mkLocation (data : IPInfoResponse) : String :=
  if truthy data.city && truthy data.country then
    (data.country.getD "") ++ " (" ++ (data.city.getD "") ++ ")"
  else if truthy data.country then data.country.getD ""
  else ""

/-- src/index.ts getIPInfo as a pure step on the cache: takes the credential key, the
current cache, the address, and the fetch outcome that the network would produce, and
returns the location string together with the updated cache.  The function is total:
every failure path is caught and yields the empty string. -/
def getIPInfo (ipinfoKey : String) (cache : List (String × String)) (ip : String)
    (fetched : FetchOutcome) : String × List (String × String) :=
  if startsColon ip then ("", cache)
  else if ipinfoKey = "" then ("", cache)
  else
    match alGet cache ip with
    | some v => (v, cache)
    | none =>
      match fetched with
      | .fetchFailed => ("", alSet cache ip "")
      | .resp ok data =>
        if ok = false then ("", alSet cache ip "")
        else (mkLocation data, alSet cache ip (mkLocation data))

/-! ## src/parser.ts -/

structure ProcessConnection where
  pid : Nat
  processName : String
  foreignAddress : String
  foreignPort : Option Nat
  localAddress : String
  localPort : Option Nat
  state : String
deriving DecidableEq, Repr

structure ProcessInfo where
  pid : Nat
  processName : String
  args : List String
deriving DecidableEq, Repr

/-- The trailing process text of a line: parts.slice(5).join of a space. -/
def procText (line : List Char) : List Char := joinSpace ((tokens line).drop 5)

/-- The continue conditions of parseConnectionsToTarget: blank and header lines. -/
def targetSkipped (line : List Char) : Bool :=
  trimEmpty line || includes line "Peer Address".toList || includes line "State".toList

/-- The connections one line pushes in parseConnectionsToTarget: at most one, when the
line has 5 columns, both address columns contain a colon, and the parsed foreign
address equals the target. -/
def lineTargetConn (targetIp : String) (line : List Char) : List ProcessConnection :=
  if targetSkipped line then []
  else if (tokens line).length ≥ 5 then
    match splitLastColon ((tokens line).getD 3 []), splitLastColon ((tokens line).getD 4 []) with
    | some (la, lp), some (fa, fp) =>
      if String.mk fa = targetIp then
        [{ pid := (findPid (procText line)).getD 0
         , processName := ((scanParenQuoted (procText line)).map String.mk).getD "unknown"
         , foreignAddress := String.mk fa
         , foreignPort := jsParseInt fp
         , localAddress := String.mk la
         , localPort := jsParseInt lp
         , state := String.mk ((tokens line).getD 0 []) }]
      else []
    | _, _ => []
  else []

/-- src/parser.ts parseConnectionsToTarget. -/
def parseConnectionsToTarget (ssOutput targetIp : String) : List ProcessConnection :=
  (linesOf ssOutput).flatMap (lineTargetConn targetIp)

/-- One line of the pid:cmdline listing: the pid before the first colon (skipped when
absent or NaN) and the raw argument bytes after it. -/
def cmdLineRaw (line : List Char) : Option (Nat × List Char) :=
  if trimEmpty line then none
  else
    match line.findIdx? (· == ':') with
    | none => none
    | some i =>
      match jsParseInt (line.take i) with
      | none => none
      | some pid => some (pid, line.drop (i + 1))

/-- Argument-list parsing in getAllCmdlines: split on null separators, drop empty
fields. -/
def nullFields (d : List Char) : List String :=
  ((splitOnPred (· == '\x00') d).filter (· ≠ [])).map String.mk

/-- One step of getAllCmdlines' loop over the pid map. -/
def cmdStep (m : List (Nat × List String)) (line : List Char) : List (Nat × List String) :=
  match cmdLineRaw line with
  | some (pid, d) => alSet m pid (nullFields d)
  | none => m

/-- The pid → args map getAllCmdlines builds from the remote command's output. -/
def parseCmdlines (result : String) : List (Nat × List String) :=
  (linesOf result).foldl cmdStep []

/-- src/parser.ts getAllCmdlines: the remote invocation either fails (the catch branch
returns an empty map) or yields output text that is parsed. -/
def getAllCmdlines (remoteResult : Except Unit String) : List (Nat × List String) :=
  match remoteResult with
  | .error _ => []
  | .ok s => parseCmdlines s

/-- One line of the listening-socket branch of getAllProcessInfo: the state carries the
set of already-processed pids and the accumulated process list. -/
def listenLineStep (cmdlineMap : List (Nat × List String)) (port : List Char)
    (st : List Nat × List ProcessInfo) (line : List Char) : List Nat × List ProcessInfo :=
  if trimEmpty line || includes line "Peer Address".toList || includes line "State".toList then st
  else if includes line (':' :: port ++ [' ']) || includes line (':' :: port ++ ['\t']) then
    if (tokens line).length ≥ 4 then
      match findPid (joinSpace ((tokens line).drop 4)) with
      | some pid =>
        if pid ∈ st.1 then st
        else (pid :: st.1,
          st.2 ++ [{ pid := pid
                   , processName :=
                       ((scanParenQuoted (joinSpace ((tokens line).drop 4))).map String.mk).getD "unknown"
                   , args := (alGet cmdlineMap pid).getD [] }])
      | none => st
    else st
  else st

def listenBranch (cmdlineMap : List (Nat × List String)) (listenResult : String)
    (port : List Char) : List ProcessInfo :=
  ((linesOf listenResult).foldl (listenLineStep cmdlineMap port) ([], [])).2

/-- The established-connection branch of getAllProcessInfo for one address. -/
def ipBranch (cmdlineMap : List (Nat × List String)) (establishedResult : String)
    (address : String) : List ProcessInfo :=
  (dedupFirst (((parseConnectionsToTarget establishedResult address).map (fun c => c.pid)).filter
      (fun pid => decide (0 < pid)))).map
    (fun pid =>
      { pid := pid
      , processName :=
          (((parseConnectionsToTarget establishedResult address).find?
              (fun c => decide (c.pid = pid))).map (fun c => c.processName)).getD "unknown"
      , args := (alGet cmdlineMap pid).getD [] })

/-- The process list getAllProcessInfo computes for one address: the listening branch
for synthetic colon keys (the port being address.substring of 1), the established
branch for everything else. -/
def addressValue (cmdlineMap : List (Nat × List String))
    (listenResult establishedResult : String) (address : String) : List ProcessInfo :=
  if startsColon address then listenBranch cmdlineMap listenResult (address.toList.drop 1)
  else ipBranch cmdlineMap establishedResult address

/-- src/parser.ts getAllProcessInfo, with its effectful inputs passed in explicitly:
the cmdline map it obtained from getAllCmdlines and the outputs of the two remote ss
invocations.  The result object is an insertion-ordered string-keyed map. -/
def getAllProcessInfo (cmdlineMap : List (Nat × List String))
    (listenResult establishedResult : String) (addresses : List String) :
    List (String × List ProcessInfo) :=
  addresses.foldl
    (fun r address =>
      alSet r address (addressValue cmdlineMap listenResult establishedResult address)) []

/-! ## Association-list lemmas -/

def keysOf (m : List (κ × β)) : List κ := m.map Prod.fst

theorem toList_mk (l : List Char) : (String.mk l).toList = l := rfl

theorem string_eq_mk_iff (X : String) (l : List Char) : X = String.mk l ↔ X.toList = l := by
  constructor
  · intro h
    rw [h]
    rfl
  · intro h
    cases X with
    | mk d => exact congrArg String.mk h

theorem alGet_alSet_self [DecidableEq κ] (m : List (κ × β)) (k : κ) (v : β) :
    alGet (alSet m k v) k = some v := by
  induction m with
  | nil => simp [alSet, alGet]
  | cons e m ih =>
    by_cases h : e.1 = k
    · simp [alSet, alGet, h]
    · simp [alSet, alGet, h, ih]

theorem alGet_alSet_ne [DecidableEq κ] (m : List (κ × β)) (k k' : κ) (v : β) (h : k' ≠ k) :
    alGet (alSet m k v) k' = alGet m k' := by
  have hne : ¬ k = k' := fun hh => h hh.symm
  induction m with
  | nil => simp [alSet, alGet, hne]
  | cons e m ih =>
    by_cases he : e.1 = k
    · subst he
      simp [alSet, alGet, hne]
    · simp [alSet, alGet, he, ih]

theorem keysOf_alSet [DecidableEq κ] (m : List (κ × β)) (k : κ) (v : β) :
    keysOf (alSet m k v) = if k ∈ keysOf m then keysOf m else keysOf m ++ [k] := by
  induction m with
  | nil => simp [alSet, keysOf]
  | cons e m ih =>
    by_cases he : e.1 = k
    · subst he
      have hmem : e.1 ∈ keysOf (e :: m) := by simp [keysOf]
      rw [if_pos hmem]
      simp [alSet, keysOf]
    · have hco : keysOf (e :: m) = e.1 :: keysOf m := by simp [keysOf]
      have h1 : keysOf (alSet (e :: m) k v) = e.1 :: keysOf (alSet m k v) := by
        simp [alSet, keysOf, he]
      by_cases hk : k ∈ keysOf m
      · have hmem : k ∈ keysOf (e :: m) := by rw [hco]; exact List.mem_cons_of_mem _ hk
        rw [if_pos hmem, h1, ih, if_pos hk, hco]
      · have hkc : k ∉ keysOf (e :: m) := by
          rw [hco]
          intro hh
          rcases List.mem_cons.mp hh with h2 | h2
          · exact he h2.symm
          · exact hk h2
        rw [if_neg hkc, h1, ih, if_neg hk, hco]
        rfl

theorem mem_keysOf_alSet [DecidableEq κ] (m : List (κ × β)) (k k' : κ) (v : β) :
    k' ∈ keysOf (alSet m k v) ↔ k' = k ∨ k' ∈ keysOf m := by
  rw [keysOf_alSet]
  by_cases h : k ∈ keysOf m
  · rw [if_pos h]
    constructor
    · exact fun hm => Or.inr hm
    · rintro (rfl | hm)
      · exact h
      · exact hm
  · rw [if_neg h]
    simp [List.mem_append, or_comm]

theorem keysNodup_alSet [DecidableEq κ] (m : List (κ × β)) (k : κ) (v : β)
    (h : (keysOf m).Nodup) : (keysOf (alSet m k v)).Nodup := by
  rw [keysOf_alSet]
  by_cases hk : k ∈ keysOf m
  · rw [if_pos hk]; exact h
  · rw [if_neg hk]
    simp [List.nodup_append, h, hk]

theorem alGet_eq_some_of_mem_nodup [DecidableEq κ] {m : List (κ × β)} {k : κ} {v : β}
    (h : (keysOf m).Nodup) (hm : (k, v) ∈ m) : alGet m k = some v := by
  induction m with
  | nil => cases hm
  | cons e m ih =>
    rcases List.mem_cons.mp hm with he | hm'
    · subst he
      simp [alGet]
    · by_cases hk : e.1 = k
      · exfalso
        have : k ∈ keysOf m := List.mem_map.mpr ⟨(k, v), hm', rfl⟩
        have hnin : e.1 ∉ keysOf m := (List.nodup_cons.mp h).1
        exact hnin (hk ▸ this)
      · simpa [alGet, hk] using ih (List.nodup_cons.mp h).2 hm'

theorem mem_of_alGet_eq_some [DecidableEq κ] {m : List (κ × β)} {k : κ} {v : β}
    (h : alGet m k = some v) : (k, v) ∈ m := by
  induction m with
  | nil => simp [alGet] at h
  | cons e m ih =>
    by_cases hk : e.1 = k
    · rw [alGet, if_pos hk] at h
      cases e with
      | mk a b =>
        obtain rfl : a = k := hk
        obtain rfl : b = v := by injection h
        exact List.mem_cons_self _ _
    · rw [alGet, if_neg hk] at h
      exact List.mem_cons_of_mem _ (ih h)

theorem mem_keysOf_of_alGet_eq_some [DecidableEq κ] {m : List (κ × β)} {k : κ} {v : β}
    (h : alGet m k = some v) : k ∈ keysOf m :=
  List.mem_map.mpr ⟨(k, v), mem_of_alGet_eq_some h, rfl⟩

theorem alGet_isSome_of_mem_keys [DecidableEq κ] {m : List (κ × β)} {k : κ}
    (h : k ∈ keysOf m) : ∃ v, alGet m k = some v := by
  induction m with
  | nil => cases h
  | cons e m ih =>
    by_cases hk : e.1 = k
    · exact ⟨e.2, by rw [alGet, if_pos hk]⟩
    · rcases List.mem_cons.mp h with he | hm
      · exact absurd he.symm hk
      · obtain ⟨v, hv⟩ := ih hm
        exact ⟨v, by rw [alGet, if_neg hk]; exact hv⟩

theorem countP_keys_eq_one [DecidableEq κ] {m : List (κ × β)} {k : κ}
    (h : (keysOf m).Nodup) (hm : k ∈ keysOf m) :
    m.countP (fun e => decide (e.1 = k)) = 1 := by
  induction m with
  | nil => cases hm
  | cons e m ih =>
    by_cases hk : e.1 = k
    · have hnin : e.1 ∉ keysOf m := (List.nodup_cons.mp h).1
      have hz : m.countP (fun e => decide (e.1 = k)) = 0 := by
        rw [List.countP_eq_zero]
        intro a ha
        simp only [decide_eq_true_eq]
        intro hak
        exact hnin (by rw [hk]; exact List.mem_map.mpr ⟨a, ha, hak⟩)
      simp [List.countP_cons, hk, hz]
    · rcases List.mem_cons.mp hm with he | hmm
      · exact absurd he.symm hk
      · simp [List.countP_cons, hk, ih (List.nodup_cons.mp h).2 hmm]

/-! ## parseForeignAddresses loop invariants -/

theorem processLine_contrib (m : List (List Char × Bool)) {line X : List Char}
    (h : lineContrib line X = true) :
    alGet (processLine m line) X = some ((alGet m X).getD false || lineOut line) := by
  rw [lineContrib, decide_eq_true_eq] at h
  obtain ⟨hsk, hfa, hne, h0, h1, h2, h3⟩ := h
  unfold processLine
  rw [hsk, hfa]
  simp only [Bool.false_eq_true, if_false]
  rw [if_neg h0, if_pos ⟨hne, h1, h2, h3⟩]
  cases hg : alGet m X with
  | none => simp [alGet_alSet_self]
  | some b => simp [alGet_alSet_self]

theorem processLine_not_contrib (m : List (List Char × Bool)) {line X : List Char}
    (h : lineContrib line X = false) (hX : startsColonL X = false) :
    alGet (processLine m line) X = alGet m X := by
  unfold processLine
  split
  · rfl
  next hsk =>
    split
    · rfl
    next hbr =>
      split
      next hcond =>
        have hskf : lineSkipped line = false := by
          cases hv : lineSkipped line
          · rfl
          · exact absurd hv hsk
        have hfa : lineForeign line ≠ X := by
          intro he
          rw [lineContrib, decide_eq_false_iff_not] at h
          exact h ⟨hskf, he, he ▸ hcond.1, he ▸ hbr, he ▸ hcond.2.1, he ▸ hcond.2.2.1,
            he ▸ hcond.2.2.2⟩
        have hfa' : X ≠ lineForeign line := fun hh => hfa hh.symm
        split
        · exact alGet_alSet_ne m _ X _ hfa'
        · exact alGet_alSet_ne m _ X _ hfa'
      next =>
        split
        next =>
          split
          next p hp =>
            have hXp : X ≠ ':' :: p := by
              intro he
              rw [he] at hX
              simp [startsColonL] at hX
            exact alGet_alSet_ne m _ X _ hXp
          next => rfl
        next => rfl

theorem processLine_preserve_true (m : List (List Char × Bool)) (line : List Char)
    {K : List Char} (h : alGet m K = some true) :
    alGet (processLine m line) K = some true := by
  unfold processLine
  split
  · exact h
  split
  · exact h
  split
  · split
    next ex hg =>
      by_cases hk : lineForeign line = K
      · rw [hk] at hg
        rw [hg] at h
        obtain rfl : ex = true := by injection h
        rw [hk, alGet_alSet_self]
        simp
      · rw [alGet_alSet_ne m _ K _ (fun hh => hk hh.symm)]
        exact h
    next hg =>
      by_cases hk : lineForeign line = K
      · rw [hk] at hg
        rw [hg] at h
        cases h
      · rw [alGet_alSet_ne m _ K _ (fun hh => hk hh.symm)]
        exact h
  split
  · split
    next p hp =>
      by_cases hk : (':' :: p : List Char) = K
      · rw [← hk, alGet_alSet_self]
      · rw [alGet_alSet_ne m _ K _ (fun hh => hk hh.symm)]
        exact h
    next => exact h
  · exact h

theorem mem_keys_processLine (m : List (List Char × Bool)) (line : List Char)
    {X : List Char} (h : X ∈ keysOf m) : X ∈ keysOf (processLine m line) := by
  unfold processLine
  split
  · exact h
  split
  · exact h
  split
  · split
    · exact (mem_keysOf_alSet _ _ _ _).mpr (Or.inr h)
    · exact (mem_keysOf_alSet _ _ _ _).mpr (Or.inr h)
  split
  · split
    · exact (mem_keysOf_alSet _ _ _ _).mpr (Or.inr h)
    · exact h
  · exact h

theorem keysNodup_processLine (m : List (List Char × Bool)) (line : List Char)
    (h : (keysOf m).Nodup) : (keysOf (processLine m line)).Nodup := by
  unfold processLine
  split
  · exact h
  split
  · exact h
  split
  · split
    · exact keysNodup_alSet m _ _ h
    · exact keysNodup_alSet m _ _ h
  split
  · split
    · exact keysNodup_alSet m _ _ h
    · exact h
  · exact h

theorem processLine_listen (m : List (List Char × Bool)) {line P : List Char}
    (hsk : lineSkipped line = false)
    (hfa : lineForeign line = "0.0.0.0".toList ∨ lineForeign line = "*".toList)
    (hlisten : includes line "LISTEN".toList = true)
    (hp : listenPort line = some P) :
    processLine m line = alSet m (':' :: P) true := by
  unfold processLine
  rw [hsk]
  simp only [Bool.false_eq_true, if_false]
  have hbr : lineForeign line ≠ "[::]".toList := by
    rcases hfa with h | h <;> rw [h] <;> decide
  rw [if_neg hbr]
  have hcond : ¬ (lineForeign line ≠ [] ∧ lineForeign line ≠ "0.0.0.0".toList ∧
      lineForeign line ≠ "*".toList ∧ lineForeign line ≠ "127.0.0.1".toList) := by
    rcases hfa with h | h <;> rw [h] <;> intro hc
    · exact hc.2.1 rfl
    · exact hc.2.2.1 rfl
  rw [if_neg hcond, if_pos ⟨hfa, hlisten⟩, hp]

theorem foldl_keysNodup (lines : List (List Char)) (m : List (List Char × Bool))
    (h : (keysOf m).Nodup) : (keysOf (lines.foldl processLine m)).Nodup := by
  induction lines generalizing m with
  | nil => exact h
  | cons l ls ih => exact ih _ (keysNodup_processLine m l h)

theorem foldl_mem_keys (lines : List (List Char)) (m : List (List Char × Bool))
    {X : List Char} (h : X ∈ keysOf m) : X ∈ keysOf (lines.foldl processLine m) := by
  induction lines generalizing m with
  | nil => exact h
  | cons l ls ih => exact ih _ (mem_keys_processLine m l h)

theorem foldl_preserve_true (lines : List (List Char)) (m : List (List Char × Bool))
    {K : List Char} (h : alGet m K = some true) :
    alGet (lines.foldl processLine m) K = some true := by
  induction lines generalizing m with
  | nil => exact h
  | cons l ls ih => exact ih _ (processLine_preserve_true m l h)

theorem foldl_alGet (lines : List (List Char)) (m : List (List Char × Bool))
    (X : List Char) (hX : startsColonL X = false) :
    alGet (lines.foldl processLine m) X =
      match alGet m X with
      | some b => some (b || lines.any (fun l => lineContrib l X && lineOut l))
      | none =>
        if lines.any (fun l => lineContrib l X) = true then
          some (lines.any (fun l => lineContrib l X && lineOut l))
        else none := by
  induction lines generalizing m with
  | nil => cases hg : alGet m X <;> simp [hg]
  | cons l ls ih =>
    rw [List.foldl_cons, ih (processLine m l)]
    by_cases hc : lineContrib l X = true
    · rw [processLine_contrib m hc]
      cases hg : alGet m X <;> simp [hg, hc, List.any_cons, Bool.or_assoc]
    · have hc' : lineContrib l X = false := by
        cases hv : lineContrib l X
        · rfl
        · exact absurd hv hc
      rw [processLine_not_contrib m hc' hX]
      cases hg : alGet m X <;> simp [hg, hc', List.any_cons]

/-! ## Claims C1, C2, C3 -/

theorem countP_parse (s : String) (X : String) :
    (parseForeignAddresses s).countP (fun c => decide (c.foreignAddress = X)) =
    ((linesOf s).foldl processLine []).countP (fun e => decide (e.1 = X.toList)) := by
  rw [parseForeignAddresses, List.countP_map]
  have hfun : ((fun c : ConnectionInfo => decide (c.foreignAddress = X)) ∘
      (fun e : List Char × Bool =>
        ({ foreignAddress := String.mk e.1, isOutgoing := e.2 } : ConnectionInfo))) =
      fun e : List Char × Bool => decide (e.1 = X.toList) := by
    funext e
    simp only [Function.comp]
    rw [decide_eq_decide]
    constructor
    · intro h
      have := (string_eq_mk_iff X e.1).mp h.symm
      exact this.symm
    · intro h
      exact ((string_eq_mk_iff X e.1).mpr h.symm).symm
  rw [hfun]

def c1ceA : String := "LISTEN 0 128 1.2.3.4:22 127.0.0.1:5432"

def c1ceB : String := "LISTEN 0 128 0.0.0.0:22 0.0.0.0:*"

/-- C1 counterexample: the claim fails on the code in two ways.  A LISTEN line whose
foreign address is 127.0.0.1 (and likewise one whose foreign address is the bracketed
IPv6 wildcard) produces NO entry at all — the LISTEN branch only fires for 0.0.0.0 and
the star wildcard — and the synthetic entry that IS produced for a 0.0.0.0 wildcard
carries isOutgoing = true, not an inbound/non-outgoing flag. -/
theorem c1_counterexample :
    ((tokens c1ceA.toList).getD 0 [] = "LISTEN".toList ∧
     lineForeign c1ceA.toList = "127.0.0.1".toList ∧
     parseForeignAddresses c1ceA = []) ∧
    ((tokens c1ceB.toList).getD 0 [] = "LISTEN".toList ∧
     lineForeign c1ceB.toList = "0.0.0.0".toList ∧
     parseForeignAddresses c1ceB = [{ foreignAddress := ":22", isOutgoing := true }]) := by
  exact ⟨⟨by decide, by decide, by decide⟩, ⟨by decide, by decide, by decide⟩⟩

/-- C1 (amended): for every input line that is not skipped, whose parsed foreign
address is 0.0.0.0 or the star wildcard, that contains LISTEN, and in which the
0.0.0.0:(digits) or *:(digits) regex captures P (in standard ss output the local
port), parseForeignAddresses emits exactly one entry with the synthetic key :P; that
entry's isOutgoing field is true (main renders any key starting with a colon as
LISTEN); and, since the synthetic key starts with a colon, it is distinct from every
entry whose key does not (in particular from every real IP address's record, so the
two are never merged).  Lines whose foreign address is 127.0.0.1 or the bracketed
IPv6 wildcard produce no entry. -/
theorem parseForeignAddresses_listen_synthetic (s : String) (line P : List Char)
    (hl : line ∈ linesOf s) (hsk : lineSkipped line = false)
    (hfa : lineForeign line = "0.0.0.0".toList ∨ lineForeign line = "*".toList)
    (hlisten : includes line "LISTEN".toList = true)
    (hp : listenPort line = some P) :
    (parseForeignAddresses s).countP
        (fun c => decide (c.foreignAddress = String.mk (':' :: P))) = 1 ∧
    (∃ c ∈ parseForeignAddresses s,
        c.foreignAddress = String.mk (':' :: P) ∧ c.isOutgoing = true) ∧
    ∀ c ∈ parseForeignAddresses s, startsColon c.foreignAddress = false →
        c.foreignAddress ≠ String.mk (':' :: P) := by
  obtain ⟨l1, l2, hsplit⟩ := List.append_of_mem hl
  have htrue : alGet ((linesOf s).foldl processLine []) (':' :: P) = some true := by
    rw [hsplit, List.foldl_append, List.foldl_cons]
    apply foldl_preserve_true
    rw [processLine_listen _ hsk hfa hlisten hp]
    exact alGet_alSet_self _ _ _
  have hnd : (keysOf ((linesOf s).foldl processLine [])).Nodup :=
    foldl_keysNodup _ [] (by simp [keysOf])
  refine ⟨?_, ?_, ?_⟩
  · have hmem := mem_keysOf_of_alGet_eq_some htrue
    have := countP_keys_eq_one hnd hmem
    rw [countP_parse]
    simpa [toList_mk] using this
  · refine ⟨{ foreignAddress := String.mk (':' :: P), isOutgoing := true }, ?_, rfl, rfl⟩
    rw [parseForeignAddresses]
    exact List.mem_map.mpr ⟨(':' :: P, true), mem_of_alGet_eq_some htrue, rfl⟩
  · intro c _ hcol heq
    rw [heq] at hcol
    simp [startsColon, startsColonL, toList_mk] at hcol

/-- Witness for C1 (amended) at the concrete LISTEN line
"LISTEN 0 128 0.0.0.0:22 0.0.0.0:*". -/
theorem parseForeignAddresses_listen_synthetic_witness :
    (c1ceB.toList ∈ linesOf c1ceB ∧ lineSkipped c1ceB.toList = false ∧
     lineForeign c1ceB.toList = "0.0.0.0".toList ∧
     includes c1ceB.toList "LISTEN".toList = true ∧
     listenPort c1ceB.toList = some "22".toList) ∧
    ((parseForeignAddresses c1ceB).countP
        (fun c => decide (c.foreignAddress = String.mk (':' :: "22".toList))) = 1 ∧
     (∃ c ∈ parseForeignAddresses c1ceB,
        c.foreignAddress = String.mk (':' :: "22".toList) ∧ c.isOutgoing = true) ∧
     ∀ c ∈ parseForeignAddresses c1ceB, startsColon c.foreignAddress = false →
        c.foreignAddress ≠ String.mk (':' :: "22".toList)) :=
  ⟨⟨by decide, by decide, by decide, by decide, by decide⟩,
   parseForeignAddresses_listen_synthetic c1ceB c1ceB.toList "22".toList (by decide)
     (by decide) (Or.inl (by decide)) (by decide) (by decide)⟩

/-- C2: for every well-formed listing line contributing a foreign address X (state not
TIME-WAIT, X none of the excluded wildcard/loopback values), the aggregated output
contains exactly one ConnectionInfo whose foreignAddress is X, no matter how many
lines reference X. -/
theorem parseForeignAddresses_unique (s : String) (X : String)
    (h : ∃ line ∈ linesOf s, lineContrib line X.toList = true) :
    (parseForeignAddresses s).countP (fun c => decide (c.foreignAddress = X)) = 1 := by
  obtain ⟨line, hline, hcon⟩ := h
  obtain ⟨l1, l2, hsplit⟩ := List.append_of_mem hline
  have hx : X.toList ∈ keysOf ((linesOf s).foldl processLine []) := by
    rw [hsplit, List.foldl_append, List.foldl_cons]
    apply foldl_mem_keys
    exact mem_keysOf_of_alGet_eq_some (processLine_contrib (l1.foldl processLine []) hcon)
  have hnd : (keysOf ((linesOf s).foldl processLine [])).Nodup :=
    foldl_keysNodup _ [] (by simp [keysOf])
  rw [countP_parse]
  exact countP_keys_eq_one hnd hx

def c2In : String := "ESTAB 0 0 1.2.3.4:40000 8.8.8.8:443\nESTAB 0 0 1.2.3.4:22 8.8.8.8:443"

/-- Witness for C2: two raw lines referencing 8.8.8.8 yield exactly one aggregated
entry. -/
theorem parseForeignAddresses_unique_witness :
    (∃ line ∈ linesOf c2In, lineContrib line "8.8.8.8".toList = true) ∧
    (parseForeignAddresses c2In).countP (fun c => decide (c.foreignAddress = "8.8.8.8")) = 1 :=
  ⟨by decide, parseForeignAddresses_unique c2In "8.8.8.8" (by decide)⟩

/-- C3: for every aggregated foreign address (a real address, i.e. one not carrying the
synthetic colon prefix), the resulting isOutgoing flag is the OR, over all lines that
contribute that address, of the predicate localPort > 32768. -/
theorem parseForeignAddresses_isOutgoing_or (s : String) (c : ConnectionInfo)
    (hc : c ∈ parseForeignAddresses s) (hns : startsColon c.foreignAddress = false) :
    c.isOutgoing =
      (linesOf s).any (fun l => lineContrib l c.foreignAddress.toList && lineOut l) := by
  rw [parseForeignAddresses] at hc
  obtain ⟨⟨k, b⟩, he, hce⟩ := List.mem_map.mp hc
  have hfa : c.foreignAddress = String.mk k := by rw [← hce]
  have hio : c.isOutgoing = b := by rw [← hce]
  have htl : c.foreignAddress.toList = k := by rw [hfa]; rfl
  have hX : startsColonL k = false := by
    rw [startsColon, htl] at hns
    exact hns
  have hnd : (keysOf ((linesOf s).foldl processLine [])).Nodup :=
    foldl_keysNodup _ [] (by simp [keysOf])
  have hget : alGet ((linesOf s).foldl processLine []) k = some b :=
    alGet_eq_some_of_mem_nodup hnd he
  rw [foldl_alGet _ [] k hX] at hget
  simp only [alGet] at hget
  by_cases hac : (linesOf s).any (fun l => lineContrib l k) = true
  · rw [if_pos hac] at hget
    have hb : (linesOf s).any (fun l => lineContrib l k && lineOut l) = b := by
      injection hget
    rw [hio, htl, ← hb]
  · rw [if_neg hac] at hget
    cases hget

/-- Witness for C3: two lines for 8.8.8.8 with local ports 40000 and 22 yield a single
entry marked outgoing, the OR of the two per-line verdicts. -/
theorem parseForeignAddresses_isOutgoing_or_witness :
    (({ foreignAddress := "8.8.8.8", isOutgoing := true } : ConnectionInfo) ∈
        parseForeignAddresses c2In ∧
      startsColon ("8.8.8.8" : String) = false) ∧
    (({ foreignAddress := "8.8.8.8", isOutgoing := true } : ConnectionInfo).isOutgoing =
      (linesOf c2In).any
        (fun l => lineContrib l ("8.8.8.8" : String).toList && lineOut l)) :=
  ⟨⟨by decide, by decide⟩,
   parseForeignAddresses_isOutgoing_or c2In _ (by decide) (by decide)⟩

/-! ## Claim C5 (listing sort order) -/

theorem stableInsert_pass (key : α → Nat) (a : α) (xs ys : List α)
    (h : ∀ b ∈ xs, ¬ key a ≤ key b) :
    stableInsert key a (xs ++ ys) = xs ++ stableInsert key a ys := by
  induction xs with
  | nil => rfl
  | cons x xs ih =>
    rw [List.cons_append, stableInsert, if_neg (h x (List.mem_cons_self _ _))]
    rw [ih (fun b hb => h b (List.mem_cons_of_mem _ hb)), List.cons_append]

theorem stableInsert_front (key : α → Nat) (a : α) (l : List α)
    (h : ∀ b ∈ l, key a ≤ key b) :
    stableInsert key a l = a :: l := by
  cases l with
  | nil => rfl
  | cons b bs => rw [stableInsert, if_pos (h b (List.mem_cons_self _ _))]

theorem sortByKey_binary (key : α → Nat) (l : List α) (h : ∀ x ∈ l, key x ≤ 1) :
    sortByKey key l =
      l.filter (fun x => decide (key x = 0)) ++ l.filter (fun x => decide (key x ≠ 0)) := by
  induction l with
  | nil => rfl
  | cons a l ih =>
    have hsort : sortByKey key (a :: l) = stableInsert key a (sortByKey key l) := rfl
    rw [hsort, ih (fun x hx => h x (List.mem_cons_of_mem _ hx))]
    by_cases ha : key a = 0
    · rw [stableInsert_front]
      · simp [List.filter_cons, ha]
      · intro b _
        rw [ha]
        exact Nat.zero_le _
    · have ha1 : key a = 1 := by
        have := h a (List.mem_cons_self _ _)
        omega
      rw [stableInsert_pass]
      · rw [stableInsert_front]
        · simp [List.filter_cons, ha]
        · intro b hb
          have hb0 : key b ≠ 0 := by
            have := List.mem_filter.mp hb
            simpa using this.2
          have hble := h b (List.mem_cons_of_mem _ (List.mem_filter.mp hb).1)
          omega
      · intro b hb
        have hb0 : key b = 0 := by
          have := List.mem_filter.mp hb
          simpa using this.2
        omega

theorem pairwise_of_forall_pairs {R : α → α → Prop} :
    ∀ l : List α, (∀ a ∈ l, ∀ b ∈ l, R a b) → l.Pairwise R := by
  intro l
  induction l with
  | nil => intro _; exact List.Pairwise.nil
  | cons a l ih =>
    intro h
    refine List.Pairwise.cons ?_ (ih ?_)
    · intro b hb
      exact h a (List.mem_cons_self _ _) b (List.mem_cons_of_mem _ hb)
    · intro x hx y hy
      exact h x (List.mem_cons_of_mem _ hx) y (List.mem_cons_of_mem _ hy)

theorem listingSorted_eq (l : List ConnectionInfo)
    (h : ∀ c ∈ l, startsColon c.foreignAddress = true → c.isOutgoing = true) :
    listingSorted l =
      l.filter (fun c => startsColon c.foreignAddress) ++
      (l.filter (fun c => !startsColon c.foreignAddress)).filter (fun c => c.isOutgoing) ++
      (l.filter (fun c => !startsColon c.foreignAddress)).filter (fun c => !c.isOutgoing) := by
  unfold listingSorted
  have e1 : (fun x : ConnectionInfo =>
      decide ((if startsColon x.foreignAddress then 0 else 1) = 0)) =
      fun c : ConnectionInfo => startsColon c.foreignAddress := by
    funext c
    by_cases hb : startsColon c.foreignAddress <;> simp [hb]
  have e1' : (fun x : ConnectionInfo =>
      decide ((if startsColon x.foreignAddress then 0 else 1) ≠ 0)) =
      fun c : ConnectionInfo => !startsColon c.foreignAddress := by
    funext c
    by_cases hb : startsColon c.foreignAddress <;> simp [hb]
  have e2 : (fun x : ConnectionInfo => decide ((if x.isOutgoing then 0 else 1) = 0)) =
      fun c : ConnectionInfo => c.isOutgoing := by
    funext c
    by_cases hb : c.isOutgoing <;> simp [hb]
  have e2' : (fun x : ConnectionInfo => decide ((if x.isOutgoing then 0 else 1) ≠ 0)) =
      fun c : ConnectionInfo => !c.isOutgoing := by
    funext c
    by_cases hb : c.isOutgoing <;> simp [hb]
  rw [sortByKey_binary _ l (by intro x _; split <;> omega)]
  rw [e1, e1']
  rw [sortByKey_binary _ _ (by intro x _; split <;> omega)]
  rw [e2, e2', List.filter_append, List.filter_append]
  have hA : (l.filter (fun c => startsColon c.foreignAddress)).filter
      (fun c => c.isOutgoing) = l.filter (fun c => startsColon c.foreignAddress) := by
    rw [List.filter_eq_self]
    intro c hc
    exact h c (List.mem_filter.mp hc).1 (List.mem_filter.mp hc).2
  have hA' : (l.filter (fun c => startsColon c.foreignAddress)).filter
      (fun c => !c.isOutgoing) = [] := by
    rw [List.filter_eq_nil_iff]
    intro c hc
    have := h c (List.mem_filter.mp hc).1 (List.mem_filter.mp hc).2
    simp [this]
  rw [hA, hA']
  simp [List.append_assoc]

def c5ceIn : String := "ESTAB 0 0 1.2.3.4:22 ::1:80\nESTAB 0 0 1.2.3.4:40000 9.9.9.9:443"

/-- C5 counterexample: the sorted listing is NOT always ordered with
colon-prefixed addresses first.  An unbracketed colon-bearing foreign address such as
::1 parses to an entry whose address starts with a colon but whose isOutgoing is
false, and the second (direction) sort pass moves it behind the regular outgoing
entries, breaking the claimed synthetic-first / outgoing / incoming order. -/
theorem listing_order_counterexample :
    listingSorted (parseForeignAddresses c5ceIn) =
      [{ foreignAddress := "9.9.9.9", isOutgoing := true },
       { foreignAddress := "::1", isOutgoing := false }] ∧
    startsColon "::1" = true ∧ startsColon "9.9.9.9" = false ∧
    ¬ (listingSorted (parseForeignAddresses c5ceIn)).Pairwise
        (fun a b => listingCategory a ≤ listingCategory b) := by
  exact ⟨by decide, by decide, by decide, by decide⟩

/-- C5 (amended): whenever every parsed entry whose address starts with a colon is
marked outgoing — true of every synthetic listening key the LISTEN branch emits, and
of all real ss output, whose addresses never begin with a colon — the two sort passes
produce exactly: the colon-prefixed (listening) entries, then the regular outgoing
entries, then the regular incoming entries, each group in first-seen order, so the
last-applied direction pass dominates ties of the earlier grouping pass. -/
theorem listing_order (s : String)
    (h : ∀ c ∈ parseForeignAddresses s,
        startsColon c.foreignAddress = true → c.isOutgoing = true) :
    listingSorted (parseForeignAddresses s) =
      (parseForeignAddresses s).filter (fun c => startsColon c.foreignAddress) ++
      ((parseForeignAddresses s).filter
          (fun c => !startsColon c.foreignAddress)).filter (fun c => c.isOutgoing) ++
      ((parseForeignAddresses s).filter
          (fun c => !startsColon c.foreignAddress)).filter (fun c => !c.isOutgoing) ∧
    (listingSorted (parseForeignAddresses s)).Pairwise
      (fun a b => listingCategory a ≤ listingCategory b) := by
  have heq := listingSorted_eq (parseForeignAddresses s) h
  refine ⟨heq, ?_⟩
  rw [heq]
  have cat0 : ∀ c ∈ (parseForeignAddresses s).filter
      (fun c => startsColon c.foreignAddress), listingCategory c = 0 := by
    intro c hc
    have := (List.mem_filter.mp hc).2
    simp [listingCategory, this]
  have cat1 : ∀ c ∈ ((parseForeignAddresses s).filter
      (fun c => !startsColon c.foreignAddress)).filter (fun c => c.isOutgoing),
      listingCategory c = 1 := by
    intro c hc
    have h1 := (List.mem_filter.mp (List.mem_filter.mp hc).1).2
    have h2 := (List.mem_filter.mp hc).2
    simp only [Bool.not_eq_true'] at h1
    simp [listingCategory, h1, h2]
  have cat2 : ∀ c ∈ ((parseForeignAddresses s).filter
      (fun c => !startsColon c.foreignAddress)).filter (fun c => !c.isOutgoing),
      listingCategory c = 2 := by
    intro c hc
    have h1 := (List.mem_filter.mp (List.mem_filter.mp hc).1).2
    have h2 := (List.mem_filter.mp hc).2
    simp only [Bool.not_eq_true'] at h1 h2
    simp [listingCategory, h1, h2]
  rw [List.pairwise_append]
  refine ⟨?_, ?_, ?_⟩
  · rw [List.pairwise_append]
    refine ⟨?_, ?_, ?_⟩
    · exact pairwise_of_forall_pairs _ (fun a ha b hb => by rw [cat0 a ha, cat0 b hb])
    · exact pairwise_of_forall_pairs _ (fun a ha b hb => by rw [cat1 a ha, cat1 b hb])
    · intro a ha b hb
      rw [cat0 a ha, cat1 b hb]
      omega
  · exact pairwise_of_forall_pairs _ (fun a ha b hb => by rw [cat2 a ha, cat2 b hb])
  · intro a ha b hb
    rcases List.mem_append.mp ha with h1 | h1
    · rw [cat0 a h1, cat2 b hb]
      omega
    · rw [cat1 a h1, cat2 b hb]
      omega

def c5wIn : String :=
  "LISTEN 0 128 0.0.0.0:22 0.0.0.0:*\nESTAB 0 0 1.2.3.4:40000 8.8.8.8:443\nESTAB 0 0 1.2.3.4:22 9.9.9.9:443"

/-- Witness for C5 (amended): a listing with one synthetic listening key, one outgoing
and one incoming entry satisfies the hypothesis and is sorted
LISTEN / outgoing / incoming. -/
theorem listing_order_witness :
    (∀ c ∈ parseForeignAddresses c5wIn,
        startsColon c.foreignAddress = true → c.isOutgoing = true) ∧
    (listingSorted (parseForeignAddresses c5wIn)).Pairwise
      (fun a b => listingCategory a ≤ listingCategory b) :=
  ⟨by decide, (listing_order c5wIn (by decide)).2⟩

/-! ## Fold lemmas for address-keyed object maps -/

theorem foldl_alSet_alGet_fn [DecidableEq κ] (v : κ → β) (ks : List κ)
    (r : List (κ × β)) (k : κ) :
    alGet (ks.foldl (fun r k => alSet r k (v k)) r) k =
      if k ∈ ks then some (v k) else alGet r k := by
  induction ks generalizing r with
  | nil => simp
  | cons a as ih =>
    rw [List.foldl_cons, ih]
    by_cases hmem : k ∈ as
    · rw [if_pos hmem, if_pos (List.mem_cons_of_mem _ hmem)]
    · rw [if_neg hmem]
      by_cases hak : k = a
      · subst hak
        rw [alGet_alSet_self, if_pos (List.mem_cons_self _ _)]
      · rw [alGet_alSet_ne _ _ _ _ hak, if_neg ?_]
        intro hh
        rcases List.mem_cons.mp hh with h1 | h1
        exacts [hak h1, hmem h1]

theorem dedupFirstAux_congr [DecidableEq α] (l : List α) (s t : List α)
    (h : ∀ x, x ∈ s ↔ x ∈ t) : dedupFirstAux s l = dedupFirstAux t l := by
  induction l generalizing s t with
  | nil => rfl
  | cons a as ih =>
    simp only [dedupFirstAux]
    by_cases ha : a ∈ s
    · rw [if_pos ha, if_pos ((h a).mp ha)]
      exact ih s t h
    · rw [if_neg ha, if_neg (fun hh => ha ((h a).mpr hh))]
      rw [ih (a :: s) (a :: t) ?_]
      intro x
      simp [List.mem_cons, h x]

theorem mem_of_dedupFirstAux [DecidableEq α] {x : α} :
    ∀ {seen l : List α}, x ∈ dedupFirstAux seen l → x ∈ l := by
  intro seen l
  induction l generalizing seen with
  | nil => intro h; simp [dedupFirstAux] at h
  | cons a as ih =>
    intro h
    simp only [dedupFirstAux] at h
    by_cases ha : a ∈ seen
    · rw [if_pos ha] at h
      exact List.mem_cons_of_mem _ (ih h)
    · rw [if_neg ha] at h
      rcases List.mem_cons.mp h with h1 | h1
      · exact h1 ▸ List.mem_cons_self _ _
      · exact List.mem_cons_of_mem _ (ih h1)

theorem mem_dedupFirstAux_of_mem [DecidableEq α] :
    ∀ (l seen : List α) (a : α), a ∈ l → a ∉ seen → a ∈ dedupFirstAux seen l := by
  intro l
  induction l with
  | nil => intro seen a h; cases h
  | cons b bs ih =>
    intro seen a hal hans
    simp only [dedupFirstAux]
    by_cases hb : b ∈ seen
    · rw [if_pos hb]
      rcases List.mem_cons.mp hal with rfl | h2
      · exact absurd hb hans
      · exact ih seen a h2 hans
    · rw [if_neg hb]
      by_cases hab : a = b
      · exact hab ▸ List.mem_cons_self _ _
      · rcases List.mem_cons.mp hal with rfl | h2
        · exact absurd rfl hab
        · refine List.mem_cons_of_mem _ (ih (b :: seen) a h2 ?_)
          intro hx
          rcases List.mem_cons.mp hx with h3 | h3
          exacts [hab h3, hans h3]

theorem foldl_alSet_keys_fn [DecidableEq κ] (v : κ → β) :
    ∀ (ks : List κ) (r : List (κ × β)),
      keysOf (ks.foldl (fun r k => alSet r k (v k)) r) =
        keysOf r ++ dedupFirstAux (keysOf r) ks := by
  intro ks
  induction ks with
  | nil => intro r; simp [dedupFirstAux]
  | cons a as ih =>
    intro r
    rw [List.foldl_cons, ih]
    by_cases ha : a ∈ keysOf r
    · simp only [dedupFirstAux, if_pos ha]
      rw [keysOf_alSet, if_pos ha]
    · simp only [dedupFirstAux, if_neg ha]
      rw [keysOf_alSet, if_neg ha]
      rw [dedupFirstAux_congr as (keysOf r ++ [a]) (a :: keysOf r) ?_]
      · rw [List.append_assoc]
        rfl
      · intro x
        simp [List.mem_append, or_comm]

/-! ## Claim C4 (pid and process-name extraction) -/

theorem mem_parseConnectionsToTarget {s tgt : String} {c : ProcessConnection}
    (hc : c ∈ parseConnectionsToTarget s tgt) :
    ∃ line ∈ linesOf s, lineTargetConn tgt line = [c] ∧
      c.pid = (findPid (procText line)).getD 0 ∧
      c.processName = ((scanParenQuoted (procText line)).map String.mk).getD "unknown" := by
  rw [parseConnectionsToTarget] at hc
  obtain ⟨line, hline, hcl⟩ := List.mem_flatMap.mp hc
  refine ⟨line, hline, ?_⟩
  unfold lineTargetConn at hcl ⊢
  split at hcl
  · simp at hcl
  next h1 =>
    rw [if_neg h1]
    split at hcl
    next h2 =>
      rw [if_pos h2]
      split at hcl
      next la lp fa fp heqL heqF =>
        split at hcl
        next h3 =>
          rw [if_pos h3]
          have hc2 := List.mem_singleton.mp hcl
          subst hc2
          exact ⟨rfl, rfl, rfl⟩
        next h3 => simp at hcl
      next h4 h5 => simp at hcl
    next h2 => simp at hcl

theorem getAllProcessInfo_pid_pos (cm : List (Nat × List String)) (lres eres : String)
    (addrs : List String) (a : String) (ps : List ProcessInfo)
    (hca : startsColon a = false)
    (hget : alGet (getAllProcessInfo cm lres eres addrs) a = some ps) :
    ∀ p ∈ ps, 0 < p.pid := by
  rw [getAllProcessInfo, foldl_alSet_alGet_fn] at hget
  split at hget
  · have hps : addressValue cm lres eres a = ps := by injection hget
    intro p hp
    rw [← hps, addressValue, hca] at hp
    simp only [Bool.false_eq_true, if_false] at hp
    rw [ipBranch] at hp
    obtain ⟨pid, hpid, rfl⟩ := List.mem_map.mp hp
    rw [dedupFirst] at hpid
    have h2 := mem_of_dedupFirstAux hpid
    have h3 := List.mem_filter.mp h2
    simpa using h3.2
  · simp [alGet] at hget

def c4ceIn : String := "ESTAB 0 0 10.0.0.1:80 5.6.7.8:443 \"zed\" users:((\"nginx\",pid=7,fd=2))"

/-- C4 counterexample: the processName the code extracts is NOT the first double-quoted
string of the trailing annotation.  On a matched line whose annotation text is
"zed" users:(("nginx",pid=7,fd=2)), the first double-quoted string is zed, but the
code's regex requires an opening parenthesis before the quote and therefore extracts
nginx. -/
theorem parseConnectionsToTarget_name_counterexample :
    parseConnectionsToTarget c4ceIn "5.6.7.8" =
      [{ pid := 7, processName := "nginx", foreignAddress := "5.6.7.8",
         foreignPort := some 443, localAddress := "10.0.0.1", localPort := some 80,
         state := "ESTAB" }] ∧
    (specFirstQuoted (procText c4ceIn.toList)).map String.mk = some "zed" ∧
    ("nginx" : String) ≠ "zed" := by
  exact ⟨by decide, by decide, by decide⟩

/-- C4 (amended): every connection record parseConnectionsToTarget emits comes from
one matched line; its pid is the number captured by the first pid=(digits) match of
the trailing annotation, defaulting to 0 when there is none, and its processName is
the first double-quoted string PRECEDED BY AN OPENING PARENTHESIS (the regex
backslash-open-paren-quote), defaulting to unknown.  getAllProcessInfo's established
branch keeps only pids greater than 0 for further process lookups. -/
theorem parseConnectionsToTarget_extraction :
    (∀ (s tgt : String) (c : ProcessConnection), c ∈ parseConnectionsToTarget s tgt →
      ∃ line ∈ linesOf s, lineTargetConn tgt line = [c] ∧
        c.pid = (findPid (procText line)).getD 0 ∧
        c.processName = ((scanParenQuoted (procText line)).map String.mk).getD "unknown") ∧
    (∀ (cm : List (Nat × List String)) (lres eres : String) (addrs : List String)
        (a : String) (ps : List ProcessInfo), startsColon a = false →
      alGet (getAllProcessInfo cm lres eres addrs) a = some ps → ∀ p ∈ ps, 0 < p.pid) :=
  ⟨fun _ _ _ hc => mem_parseConnectionsToTarget hc,
   fun cm lres eres addrs a ps hca hget =>
     getAllProcessInfo_pid_pos cm lres eres addrs a ps hca hget⟩

def c4wIn : String := "ESTAB 0 0 10.0.0.1:80 5.6.7.8:443 users:((\"nginx\",pid=1234,fd=6))"

/-- Witness for C4 (amended): the documented annotation yields pid 1234 and name
nginx, and the established branch of getAllProcessInfo reports only positive pids. -/
theorem parseConnectionsToTarget_extraction_witness :
    (({ pid := 1234, processName := "nginx", foreignAddress := "5.6.7.8",
        foreignPort := some 443, localAddress := "10.0.0.1", localPort := some 80,
        state := "ESTAB" } : ProcessConnection) ∈ parseConnectionsToTarget c4wIn "5.6.7.8") ∧
    (∃ line ∈ linesOf c4wIn,
      lineTargetConn "5.6.7.8" line =
        [{ pid := 1234, processName := "nginx", foreignAddress := "5.6.7.8",
           foreignPort := some 443, localAddress := "10.0.0.1", localPort := some 80,
           state := "ESTAB" }] ∧
      ({ pid := 1234, processName := "nginx", foreignAddress := "5.6.7.8",
         foreignPort := some 443, localAddress := "10.0.0.1", localPort := some 80,
         state := "ESTAB" } : ProcessConnection).pid = (findPid (procText line)).getD 0 ∧
      ({ pid := 1234, processName := "nginx", foreignAddress := "5.6.7.8",
         foreignPort := some 443, localAddress := "10.0.0.1", localPort := some 80,
         state := "ESTAB" } : ProcessConnection).processName =
        ((scanParenQuoted (procText line)).map String.mk).getD "unknown") ∧
    (startsColon "5.6.7.8" = false ∧
      alGet (getAllProcessInfo [] "" c4wIn [":80", "5.6.7.8"]) "5.6.7.8" =
        some [{ pid := 1234, processName := "nginx", args := [] }] ∧
      ∀ p ∈ ([{ pid := 1234, processName := "nginx", args := [] }] : List ProcessInfo),
        0 < p.pid) :=
  ⟨by decide,
   parseConnectionsToTarget_extraction.1 c4wIn "5.6.7.8" _ (by decide),
   by decide, by decide,
   parseConnectionsToTarget_extraction.2 [] "" c4wIn [":80", "5.6.7.8"] "5.6.7.8" _
     (by decide) (by decide)⟩

/-! ## Claims C6, C7, C8 -/

theorem parseCmdlines_origin :
    ∀ (lines : List (List Char)) (m : List (Nat × List String)) (pid : Nat)
      (args : List String), alGet (lines.foldl cmdStep m) pid = some args →
      (∃ line ∈ lines, ∃ d, cmdLineRaw line = some (pid, d) ∧ args = nullFields d) ∨
        alGet m pid = some args := by
  intro lines
  induction lines with
  | nil => intro m pid args h; exact Or.inr h
  | cons l ls ih =>
    intro m pid args h
    rw [List.foldl_cons] at h
    rcases ih _ pid args h with h1 | h1
    · obtain ⟨line, hl, hrest⟩ := h1
      exact Or.inl ⟨line, List.mem_cons_of_mem _ hl, hrest⟩
    · rw [cmdStep] at h1
      split at h1
      next pid' d heq =>
        by_cases hp : pid' = pid
        · subst hp
          rw [alGet_alSet_self] at h1
          obtain rfl : nullFields d = args := by injection h1
          exact Or.inl ⟨l, List.mem_cons_self _ _, d, heq, rfl⟩
        · rw [alGet_alSet_ne _ _ _ _ (fun hh => hp hh.symm)] at h1
          exact Or.inr h1
      next => exact Or.inr h1

/-- C6: every entry of the pid map getAllCmdlines builds comes from a pid line, and
its argument list is exactly the non-empty null-separated fields of that line's
command-line bytes, in order, with every empty field dropped. -/
theorem getAllCmdlines_nullsplit :
    ∀ (result : String) (pid : Nat) (args : List String),
      alGet (parseCmdlines result) pid = some args →
      ∃ line ∈ linesOf result, ∃ d, cmdLineRaw line = some (pid, d) ∧
        args = nullFields d ∧ ∀ a ∈ args, a ≠ "" := by
  intro result pid args h
  rcases parseCmdlines_origin (linesOf result) [] pid args h with h1 | h1
  · obtain ⟨line, hl, d, hraw, hargs⟩ := h1
    refine ⟨line, hl, d, hraw, hargs, ?_⟩
    intro a ha
    rw [hargs, nullFields] at ha
    obtain ⟨cs, hcs, rfl⟩ := List.mem_map.mp ha
    have hne : cs ≠ [] := by simpa using (List.mem_filter.mp hcs).2
    intro he
    have h2 := (string_eq_mk_iff "" cs).mp he.symm
    exact hne h2.symm
  · simp [alGet] at h1

def c6In : String := "12:/usr/bin/foo\x00--flag\x00\x00"

/-- Witness for C6: the bytes /usr/bin/foo NUL --flag NUL NUL parse to exactly the two
non-empty fields, the trailing empty fields dropped. -/
theorem getAllCmdlines_nullsplit_witness :
    alGet (parseCmdlines c6In) 12 = some ["/usr/bin/foo", "--flag"] ∧
    (∃ line ∈ linesOf c6In, ∃ d, cmdLineRaw line = some (12, d) ∧
      (["/usr/bin/foo", "--flag"] : List String) = nullFields d ∧
      ∀ a ∈ (["/usr/bin/foo", "--flag"] : List String), a ≠ "") :=
  ⟨by decide, getAllCmdlines_nullsplit c6In 12 _ (by decide)⟩

/-- C7: getName returns the label of the first rule in the ordered lookup list whose
pattern matches the address, and the address itself when none matches; with the
ordered rules prefix 45.62.209.66 -> old server, prefix 45. -> generic, the address
45.62.209.66 resolves to old server (first match wins). -/
theorem getName_first_match :
    (∀ (rules : List (AddrPattern × String)) (addr : String),
      getName rules addr =
        ((rules.find? (fun r => patMatches r.1 addr)).map Prod.snd).getD addr) ∧
    getName [(AddrPattern.pre "45.62.209.66", "old server"), (AddrPattern.pre "45.", "generic")]
      "45.62.209.66" = "old server" := by
  constructor
  · intro rules addr
    induction rules with
    | nil => rfl
    | cons r rest ih =>
      rw [getName]
      cases hv : patMatches r.1 addr with
      | true => simp [List.find?_cons, hv]
      | false => simp [List.find?_cons, hv, ih]
  · decide

/-- C8: getIPInfo never fails: with an absent credential key it returns the empty
string and leaves the cache alone for every address; on a failed lookup (a thrown
fetch or a non-ok response) for an uncached address it returns the empty string and
caches the empty string, so a repeated lookup for the same address hits the cache —
returning the cached empty string for EVERY possible outcome of a second fetch, i.e.
no retry is performed. -/
theorem getIPInfo_failure_safe :
    (∀ (cache : List (String × String)) (ip : String) (f : FetchOutcome),
      getIPInfo "" cache ip f = ("", cache)) ∧
    (∀ (key : String) (cache : List (String × String)) (ip : String) (f : FetchOutcome),
      key ≠ "" → startsColon ip = false → alGet cache ip = none →
      (f = FetchOutcome.fetchFailed ∨ ∃ d, f = FetchOutcome.resp false d) →
      getIPInfo key cache ip f = ("", alSet cache ip "") ∧
      ∀ f2, getIPInfo key (alSet cache ip "") ip f2 = ("", alSet cache ip "")) := by
  constructor
  · intro cache ip f
    unfold getIPInfo
    split
    · rfl
    · rw [if_pos rfl]
  · intro key cache ip f hkey hip hget hf
    constructor
    · unfold getIPInfo
      rw [hip]
      simp only [Bool.false_eq_true, if_false]
      rw [if_neg hkey, hget]
      rcases hf with rfl | ⟨d, rfl⟩
      · rfl
      · rfl
    · intro f2
      unfold getIPInfo
      rw [hip]
      simp only [Bool.false_eq_true, if_false]
      rw [if_neg hkey, alGet_alSet_self]

/-- Witness for C8 at a concrete failed lookup for 8.8.8.8 with key k and an empty
cache. -/
theorem getIPInfo_failure_safe_witness :
    (("k" : String) ≠ "" ∧ startsColon "8.8.8.8" = false ∧
      alGet ([] : List (String × String)) "8.8.8.8" = none ∧
      (FetchOutcome.fetchFailed = FetchOutcome.fetchFailed ∨
        ∃ d, FetchOutcome.fetchFailed = FetchOutcome.resp false d)) ∧
    (getIPInfo "k" [] "8.8.8.8" FetchOutcome.fetchFailed = ("", alSet [] "8.8.8.8" "") ∧
      ∀ f2, getIPInfo "k" (alSet [] "8.8.8.8" "") "8.8.8.8" f2 = ("", alSet [] "8.8.8.8" "")) :=
  ⟨⟨by decide, by decide, rfl, Or.inl rfl⟩,
   getIPInfo_failure_safe.2 "k" [] "8.8.8.8" FetchOutcome.fetchFailed (by decide) (by decide)
     rfl (Or.inl rfl)⟩

/-! ## Claims C9, C10 -/

/-- Dropping the cmdline map (the result of a failed getAllCmdlines) only empties the
args fields downstream. -/
def eraseArgs (p : ProcessInfo) : ProcessInfo := { p with args := [] }

theorem listenLineStep_erase (cm : List (Nat × List String)) (port line : List Char)
    (pids : List Nat) (acc : List ProcessInfo) :
    listenLineStep [] port (pids, acc.map eraseArgs) line =
      ((listenLineStep cm port (pids, acc) line).1,
       (listenLineStep cm port (pids, acc) line).2.map eraseArgs) := by
  rw [listenLineStep, listenLineStep]
  by_cases h1 : (trimEmpty line || includes line "Peer Address".toList ||
      includes line "State".toList) = true
  · rw [if_pos h1, if_pos h1]
  · rw [if_neg h1, if_neg h1]
    by_cases h2 : (includes line (':' :: port ++ [' ']) ||
        includes line (':' :: port ++ ['\t'])) = true
    · rw [if_pos h2, if_pos h2]
      by_cases h3 : (tokens line).length ≥ 4
      · rw [if_pos h3, if_pos h3]
        cases hfp : findPid (joinSpace ((tokens line).drop 4)) with
        | none => rfl
        | some pid =>
          by_cases h4 : pid ∈ pids
          · simp [h4]
          · simp [h4, eraseArgs, alGet]
      · rw [if_neg h3, if_neg h3]
    · rw [if_neg h2, if_neg h2]

theorem listenFold_erase (cm : List (Nat × List String)) (port : List Char) :
    ∀ (lines : List (List Char)) (pids : List Nat) (acc : List ProcessInfo),
      lines.foldl (listenLineStep [] port) (pids, acc.map eraseArgs) =
        ((lines.foldl (listenLineStep cm port) (pids, acc)).1,
         (lines.foldl (listenLineStep cm port) (pids, acc)).2.map eraseArgs) := by
  intro lines
  induction lines with
  | nil => intro pids acc; rfl
  | cons l ls ih =>
    intro pids acc
    rw [List.foldl_cons, List.foldl_cons, listenLineStep_erase cm port l pids acc]
    exact ih (listenLineStep cm port (pids, acc) l).1 (listenLineStep cm port (pids, acc) l).2

theorem listenBranch_erase (cm : List (Nat × List String)) (lres : String) (port : List Char) :
    listenBranch [] lres port = (listenBranch cm lres port).map eraseArgs := by
  rw [listenBranch, listenBranch]
  have h := listenFold_erase cm port (linesOf lres) [] []
  rw [show (([] : List ProcessInfo).map eraseArgs) = [] from rfl] at h
  rw [h]

theorem ipBranch_erase (cm : List (Nat × List String)) (eres a : String) :
    ipBranch [] eres a = (ipBranch cm eres a).map eraseArgs := by
  rw [ipBranch, ipBranch, List.map_map]
  rfl

theorem alSet_map_erase :
    ∀ (r : List (String × List ProcessInfo)) (k : String) (v : List ProcessInfo),
      (alSet r k v).map (fun e => (e.1, e.2.map eraseArgs)) =
        alSet (r.map (fun e => (e.1, e.2.map eraseArgs))) k (v.map eraseArgs) := by
  intro r
  induction r with
  | nil => intro k v; rfl
  | cons e r ih =>
    intro k v
    by_cases he : e.1 = k
    · simp [alSet, he]
    · simp [alSet, he, ih k v]

theorem getAllProcessInfo_erase (cm : List (Nat × List String)) (lres eres : String) :
    ∀ (addrs : List String) (r : List (String × List ProcessInfo)),
      addrs.foldl (fun r a => alSet r a (addressValue [] lres eres a))
          (r.map (fun e => (e.1, e.2.map eraseArgs))) =
        (addrs.foldl (fun r a => alSet r a (addressValue cm lres eres a)) r).map
          (fun e => (e.1, e.2.map eraseArgs)) := by
  intro addrs
  induction addrs with
  | nil => intro r; rfl
  | cons a as ih =>
    intro r
    rw [List.foldl_cons, List.foldl_cons]
    have hv : addressValue [] lres eres a = (addressValue cm lres eres a).map eraseArgs := by
      rw [addressValue, addressValue]
      by_cases hb : startsColon a = true
      · rw [if_pos hb, if_pos hb]
        exact listenBranch_erase cm lres _
      · rw [if_neg hb, if_neg hb]
        exact ipBranch_erase cm eres a
    rw [hv, ← alSet_map_erase]
    exact ih (alSet r a (addressValue cm lres eres a))

/-- C9: a failed remote command in getAllCmdlines is caught and yields the empty map,
and getAllProcessInfo run with that empty map produces exactly the result it would
have produced with any cmdline map, except that every process record's argument list
is empty — the run continues with partial results instead of aborting. -/
theorem getAllCmdlines_failure_recovery :
    getAllCmdlines (Except.error ()) = [] ∧
    ∀ (cm : List (Nat × List String)) (lres eres : String) (addrs : List String),
      getAllProcessInfo [] lres eres addrs =
        (getAllProcessInfo cm lres eres addrs).map (fun e => (e.1, e.2.map eraseArgs)) := by
  refine ⟨rfl, ?_⟩
  intro cm lres eres addrs
  rw [getAllProcessInfo, getAllProcessInfo]
  have h := getAllProcessInfo_erase cm lres eres addrs []
  simpa using h

theorem foldl_alSet_keysNodup [DecidableEq κ] (v : κ → β) (ks : List κ)
    (r : List (κ × β)) (h : (keysOf r).Nodup) :
    (keysOf (ks.foldl (fun r k => alSet r k (v k)) r)).Nodup := by
  induction ks generalizing r with
  | nil => exact h
  | cons a as ih => exact ih _ (keysNodup_alSet r a (v a) h)

/-- C10: the map getAllProcessInfo returns has exactly the requested addresses as
keys (in first-occurrence order, each exactly once) and no others; every requested
address is present — an address with no findings maps to a (possibly empty) process
list rather than being absent. -/
theorem getAllProcessInfo_total_map :
    ∀ (cm : List (Nat × List String)) (lres eres : String) (addrs : List String),
      keysOf (getAllProcessInfo cm lres eres addrs) = dedupFirst addrs ∧
      (∀ a ∈ addrs, (getAllProcessInfo cm lres eres addrs).countP
          (fun e => decide (e.1 = a)) = 1) ∧
      ∀ a ∈ addrs, ∃ ps, alGet (getAllProcessInfo cm lres eres addrs) a = some ps := by
  intro cm lres eres addrs
  have hkeys : keysOf (getAllProcessInfo cm lres eres addrs) = dedupFirst addrs := by
    rw [getAllProcessInfo, foldl_alSet_keys_fn]
    simp [keysOf, dedupFirst]
  refine ⟨hkeys, ?_, ?_⟩
  · intro a ha
    have hnd : (keysOf (getAllProcessInfo cm lres eres addrs)).Nodup := by
      rw [getAllProcessInfo]
      apply foldl_alSet_keysNodup
      simp [keysOf]
    have hmem : a ∈ keysOf (getAllProcessInfo cm lres eres addrs) := by
      rw [hkeys, dedupFirst]
      exact mem_dedupFirstAux_of_mem addrs [] a ha (by simp)
    exact countP_keys_eq_one hnd hmem
  · intro a ha
    rw [getAllProcessInfo, foldl_alSet_alGet_fn, if_pos ha]
    exact ⟨_, rfl⟩

/-- Witness for C10: two requested addresses, one synthetic and one regular, each get
exactly one entry, and the regular address with no matching connections maps to the
empty list. -/
theorem getAllProcessInfo_total_map_witness :
    (("5.6.7.8" : String) ∈ ([":80", "5.6.7.8"] : List String)) ∧
    (getAllProcessInfo [] "" "" [":80", "5.6.7.8"]).countP
      (fun e => decide (e.1 = "5.6.7.8")) = 1 ∧
    (∃ ps, alGet (getAllProcessInfo [] "" "" [":80", "5.6.7.8"]) "5.6.7.8" = some ps) ∧
    alGet (getAllProcessInfo [] "" "" [":80", "5.6.7.8"]) "5.6.7.8" = some [] :=
  ⟨by decide,
   (getAllProcessInfo_total_map [] "" "" [":80", "5.6.7.8"]).2.1 "5.6.7.8" (by decide),
   (getAllProcessInfo_total_map [] "" "" [":80", "5.6.7.8"]).2.2 "5.6.7.8" (by decide),
   by decide⟩
